import Mathlib

/-!
A shallow embedding of `pyloud.py` (LoudnessSorter): a tool that scans a
directory tree for audio files, computes integrated loudness per file via an
external measurement routine, caches results in a JSON file keyed by path, and
reports the files sorted ascending by loudness.

Modelling choices:
* Paths are lists of components (`Path`), absolute from the filesystem root.
  The filesystem is the list of regular files it contains (directories are
  implicit as path prefixes); a well-formed filesystem has canonical non-empty
  paths.
* Python `dict`s are association lists in insertion order with unique keys;
  `dictInsert` mirrors `d[k] = v` (in-place value update, append when new) and
  `dictOfPairs` mirrors a dict comprehension (later pair overwrites the value
  of an equal earlier key, keeping the first position).
* Loudness values are an arbitrary linearly ordered type `V` (the code treats
  them as opaque comparable numbers; float NaN pathologies are outside the
  model).
* The external measurement (`soundfile` decode + `pyloudnorm` metering) is an
  abstract function `measure : Path → Except String V`; `calculate_loudness`
  is the `try/except` wrapper around it.  The nondeterministic completion
  order of the thread pool is an abstract scheduler `sched`, constrained in
  theorems to permute the dispatched file list.
-/

namespace Pyloud

/-- A filesystem path, as its list of components from the root. -/
abbrev Path := List String

/-- Python dict assignment `d[k] = v`: updates the value in place if the key
is present (keeping its position), otherwise appends the new binding. -/
def dictInsert {K V : Type} [DecidableEq K] : List (K × V) → K → V → List (K × V)
  | [], k, v => [(k, v)]
  | (k', v') :: rest, k, v =>
    if k' = k then (k', v) :: rest else (k', v') :: dictInsert rest k v

/-- Python dict lookup: first binding wins (on a real dict keys are unique). -/
def dictFind {K V : Type} [DecidableEq K] : List (K × V) → K → Option V
  | [], _ => none
  | (k', v') :: rest, k => if k' = k then some v' else dictFind rest k

/-- The keys of a dict, in insertion order. -/
def dictKeys {K V : Type} (d : List (K × V)) : List K := d.map Prod.fst

/-- Python `k in d` for a dict. -/
def dictMem {K V : Type} [DecidableEq K] (d : List (K × V)) (k : K) : Bool :=
  (dictFind d k).isSome

/-- Building a Python dict from a sequence of key-value pairs, as a dict
comprehension or `dict(...)` does. -/
def dictOfPairs {K V : Type} [DecidableEq K] (l : List (K × V)) : List (K × V) :=
  l.foldl (fun d kv => dictInsert d kv.1 kv.2) []

/-- The unique-keys invariant every Python dict satisfies. -/
def NodupKeys {K V : Type} (d : List (K × V)) : Prop := (dictKeys d).Nodup

instance {K V : Type} [DecidableEq K] (d : List (K × V)) :
    Decidable (NodupKeys d) := by
  unfold NodupKeys; infer_instance

/-- One step of POSIX path normalization as `os.path.normpath` performs on an
absolute path: empty and `.` components vanish, `..` removes the previous
component (at the root it stays at the root), anything else is appended. -/
def normStep (acc : List String) (c : String) : List String :=
  if c = "" ∨ c = "." then acc
  else if c = ".." then acc.dropLast
  else acc ++ [c]

/-- Normalization of the components of an absolute path. -/
def normalize (p : List String) : Path := p.foldl normStep []

/-- A stored cache key: an absolute or relative path string, in components. -/
inductive Key where
  | abs (p : List String)
  | rel (p : List String)
deriving DecidableEq

/-- Model of `os.path.abspath` with current working directory `cwd`: a relative path is
joined to `cwd`, and the result is normalized. -/
def abspath (cwd : Path) : Key → Path
  | .abs p => normalize p
  | .rel p => normalize (cwd ++ p)

/-- Strips the common leading components of two paths, returning the rests. -/
def stripCommon : List String → List String → List String × List String
  | a :: as, b :: bs => if a = b then stripCommon as bs else (a :: as, b :: bs)
  | as, bs => (as, bs)

/-- Model of `os.path.relpath p` relative to working directory `cwd` (both absolute):
climb out of the non-shared part of `cwd` with `..` steps, then descend into
the non-shared part of `p`; the empty relative path is spelled `.`. -/
def relpath (cwd p : Path) : List String :=
  let s := stripCommon p cwd
  let r := s.2.map (fun _ => "..") ++ s.1
  if r = [] then ["."] else r

/-- A component that survives normalization unchanged. -/
def isCanonName (c : String) : Bool := c ≠ "" && c ≠ "." && c ≠ ".."

/-- A canonical absolute path: no empty, `.` or `..` components. -/
def CanonPath (p : Path) : Prop := ∀ c ∈ p, isCanonName c = true

instance (p : Path) : Decidable (CanonPath p) := by
  unfold CanonPath; infer_instance

/-- The cache-file states a run can load without raising: missing, text that
is not valid JSON, or a parsed JSON object (entries in textual order, keys as
written).  These are the disk states `sort_songs_by_loudness` is modelled
over; `CacheFileBytes` below is the full space of raw contents, including the
two content classes on which loading raises an uncaught exception. -/
inductive CacheFile (V : Type) where
  | absent
  | corrupt
  | content (entries : List (Key × V))
deriving DecidableEq

/-- Loading the cache: an absent file gives an empty cache; a `json.JSONDecodeError`
is caught, logged, and gives an empty cache; otherwise the parsed object is
re-keyed by `os.path.abspath` via a dict comprehension. -/
def load_cache {V : Type} (cwd : Path) : CacheFile V → List (Path × V)
  | .absent => []
  | .corrupt => []
  | .content entries => dictOfPairs (entries.map (fun kv => (abspath cwd kv.1, kv.2)))

/-- Exceptions `load_cache` can raise past its boundary: `json.load` raises
`UnicodeDecodeError` on bytes that do not decode as text, and `.items()` on a
parsed value that is not a dict raises `AttributeError`; neither is caught by
the `except json.JSONDecodeError` handler. -/
inductive PyError where
  | unicodeDecodeError
  | attributeError
deriving DecidableEq

/-- The raw content of the cache file on disk, one constructor per class of
content `load_cache` treats differently: file missing; bytes that do not
decode as text; text that is not valid JSON; a JSON object; and valid JSON
whose top-level value is not an object (an array, string, number, ...). -/
inductive CacheFileBytes (V : Type) where
  | absent
  | undecodable
  | unparseable
  | object (entries : List (Key × V))
  | nonObject
deriving DecidableEq

/-- Loading modelled over the full space of raw disk contents, with crashes
explicit, mirroring the code path by path: the existence check, `json.load`
inside `try`, the `except json.JSONDecodeError` handler, and the re-keying
dict comprehension over `cache.items()`.  Only the JSON-decode error is
caught; the other two error classes escape as uncaught exceptions. -/
def load_cache_checked {V : Type} (cwd : Path) :
    CacheFileBytes V → Except PyError (List (Path × V))
  | .absent => .ok []
  | .undecodable => .error .unicodeDecodeError
  | .unparseable => .ok []
  | .object entries =>
    .ok (dictOfPairs (entries.map (fun kv => (abspath cwd kv.1, kv.2))))
  | .nonObject => .error .attributeError

/-- Saving the cache: the cache is re-keyed by `os.path.relpath` via a dict
comprehension and written out as JSON (the surrounding `try/except` only logs
write errors; this models the successful write). -/
def save_cache {V : Type} (cwd : Path) (cache : List (Path × V)) : CacheFile V :=
  .content (dictOfPairs (cache.map (fun kv => (Key.rel (relpath cwd kv.1), kv.2))))

/-- The loudness calculator: runs the external decode-and-meter routine inside
`try/except`; any failure is logged and yields `None`. -/
def calculate_loudness {V : Type} (measure : Path → Except String V) (p : Path) :
    Option V :=
  match measure p with
  | .ok v => some v
  | .error _e => none

/-- Suffix test on strings, computed on the character list (the builtin does not
evaluate by kernel reduction; this one does, and means the same thing). -/
def strEndsWith (s t : String) : Bool := t.data.isSuffixOf s.data

/-- Prefix test on strings, computed on the character list. -/
def strStartsWith (s t : String) : Bool := t.data.isPrefixOf s.data

/-- ASCII uppercasing of one character, as `str.upper` does to the ASCII
extension strings the scanner builds. -/
def upperChar (c : Char) : Char :=
  if 'a' ≤ c ∧ c ≤ 'z' then Char.ofNat (c.toNat - 32) else c

/-- Uppercasing of an ASCII string, computed on the character list. -/
def strToUpper (s : String) : String := ⟨s.data.map upperChar⟩

/-- ASCII lowercasing of one character. -/
def lowerChar (c : Char) : Char :=
  if 'A' ≤ c ∧ c ≤ 'Z' then Char.ofNat (c.toNat + 32) else c

/-- ASCII lowercasing, computed on the character list. -/
def strToLower (s : String) : String := ⟨s.data.map lowerChar⟩

/-- The extension of a filename as the specification reads it: the part after
the last dot (empty when there is no dot).  This definition follows the
spec's words, for comparison against the code's glob-based scanner. -/
def extensionOf (name : String) : String :=
  if name.data.contains '.' then
    ⟨(name.data.reverse.takeWhile (fun c => c ≠ '.')).reverse⟩
  else ""

/-- glob never matches a name that starts with a dot. -/
def hiddenName (s : String) : Bool := strStartsWith s "."

/-- Whether glob pattern `*.ext` matches a filename: it ends in `.ext` and is
not hidden. -/
def globNameMatch (ext : String) (name : String) : Bool :=
  strEndsWith name ("." ++ ext) && !hiddenName name

/-- Whether the recursive pattern `**/*.ext` matches the given components
(relative to the glob root): zero or more non-hidden directories followed by
a name matching `*.ext`. -/
def globRecMatch (ext : String) : List String → Bool
  | [] => false
  | [name] => globNameMatch ext name
  | d :: rest => !hiddenName d && globRecMatch ext rest

/-- Whether `glob.glob(os.path.join(folder, "**/*." + ext), recursive=True)`
returns the absolute path `p`. -/
def matchesUnder (folder : Path) (ext : String) (p : Path) : Bool :=
  folder.isPrefixOf p && globRecMatch ext (p.drop folder.length)

/-- The extension allow-list of `get_audio_files`. -/
def audio_extensions : List String := ["mp3", "wav", "flac", "ogg"]

/-- A filesystem: the regular files it contains, as absolute paths. -/
structure FS where
  files : List Path

/-- A well-formed filesystem: every file has a canonical, non-empty absolute
path (as real scanned paths do). -/
def FS.Wf (fs : FS) : Prop := ∀ p ∈ fs.files, CanonPath p ∧ p ≠ []

instance (fs : FS) : Decidable fs.Wf := by
  unfold FS.Wf; infer_instance

/-- The scanner: for each allow-listed extension, globs recursively for
the all-lowercase and the all-uppercase spelling, and returns absolute paths. -/
def get_audio_files (fs : FS) (folder : Path) : List Path :=
  audio_extensions.flatMap (fun ext =>
    fs.files.filter (matchesUnder folder ext) ++
    fs.files.filter (matchesUnder folder (strToUpper ext)))

/-- What a run of `sort_songs_by_loudness` produces: the returned report, the
final in-memory cache, the cache file state after the run, and the `new_files`
work list it computed. -/
structure RunResult (V : Type) where
  report : List (Path × V)
  cacheEnd : List (Path × V)
  diskEnd : CacheFile V
  newFiles : List Path

/-- The body of the fan-in loop of the batch processor: a `Some` result is
inserted into the cache, a `None` result is skipped. -/
def collectResult {V : Type} (c : List (Path × V)) (f : Path) :
    Option V → List (Path × V)
  | some l => dictInsert c f l
  | none => c

/-- The fan-in loop of the batch processor: results are collected in thread
completion order `order`. -/
def processNew {V : Type} (calcFn : Path → Option V) (cache : List (Path × V))
    (order : List Path) : List (Path × V) :=
  order.foldl (fun c f => collectResult c f (calcFn f)) cache

/-- The reporting step: the list comprehension keeping cache entries whose
file is in the current file list, then Python's stable ascending sort by the
loudness component. -/
def sortReport {V : Type} [LinearOrder V] (cache : List (Path × V))
    (files : List Path) : List (Path × V) :=
  (cache.filter (fun kv => files.contains kv.1)).mergeSort
    (fun a b => decide (a.2 ≤ b.2))

/-- The dict comprehension keeping only cache entries whose file is in the
current file list (the spec calls this step `reconcile`). -/
def reconcile {V : Type} (cache : List (Path × V)) (files : List Path) :
    List (Path × V) :=
  dictOfPairs (cache.filter (fun kv => files.contains kv.1))

/-- The list comprehension computing `new_files`: current files not in the
(reconciled) cache. -/
def newFilesOf {V : Type} (files : List Path) (cache : List (Path × V)) :
    List Path :=
  files.filter (fun f => !dictMem cache f)

/-- The full run: load the cache, scan, drop cache entries for
vanished files, compute loudness for files not in the cache (in scheduler
completion order), save the cache only when there was new work, and report
the surviving entries sorted by loudness. -/
def sort_songs_by_loudness {V : Type} [LinearOrder V] (fs : FS) (cwd folder : Path)
    (disk : CacheFile V) (calcFn : Path → Option V)
    (sched : List Path → List Path) : RunResult V :=
  let cache0 := load_cache cwd disk
  let files := get_audio_files fs folder
  let cache1 := reconcile cache0 files
  let newFiles := newFilesOf files cache1
  if newFiles.isEmpty then
    { report := sortReport cache1 files, cacheEnd := cache1, diskEnd := disk,
      newFiles := newFiles }
  else
    let cache2 := processNew calcFn cache1 (sched newFiles)
    { report := sortReport cache2 files, cacheEnd := cache2,
      diskEnd := save_cache cwd cache2, newFiles := newFiles }

/-! ## Dictionary lemmas -/

theorem dictFind_eq_none_iff {K V : Type} [DecidableEq K] {d : List (K × V)} {k : K} :
    dictFind d k = none ↔ k ∉ dictKeys d := by
  induction d with
  | nil => simp [dictFind, dictKeys]
  | cons kv rest ih =>
    obtain ⟨k', v'⟩ := kv
    by_cases h : k' = k
    · subst h; simp [dictFind, dictKeys]
    · simp [dictFind, dictKeys, h, Ne.symm h, ih]

theorem dictMem_iff {K V : Type} [DecidableEq K] {d : List (K × V)} {k : K} :
    dictMem d k = true ↔ k ∈ dictKeys d := by
  rw [dictMem, Option.isSome_iff_ne_none, ne_eq, dictFind_eq_none_iff, not_not]

theorem dictMem_eq_false_iff {K V : Type} [DecidableEq K] {d : List (K × V)} {k : K} :
    dictMem d k = false ↔ k ∉ dictKeys d := by
  rw [← Bool.not_eq_true, dictMem_iff]

theorem dictKeys_dictInsert {K V : Type} [DecidableEq K] (d : List (K × V)) (k : K) (v : V) :
    dictKeys (dictInsert d k v) =
      if k ∈ dictKeys d then dictKeys d else dictKeys d ++ [k] := by
  induction d with
  | nil => simp [dictInsert, dictKeys]
  | cons kv rest ih =>
    obtain ⟨k', v'⟩ := kv
    by_cases h : k' = k
    · subst h; simp [dictInsert, dictKeys]
    · have hne : ¬k = k' := fun hh => h hh.symm
      simp only [dictInsert, if_neg h, dictKeys, List.map_cons, List.mem_cons] at ih ⊢
      rw [ih]
      by_cases hm : k ∈ List.map Prod.fst rest
      · simp [hm]
      · simp [hm, hne]

theorem mem_dictKeys_dictInsert {K V : Type} [DecidableEq K] {d : List (K × V)}
    {k a : K} {v : V} :
    a ∈ dictKeys (dictInsert d k v) ↔ a ∈ dictKeys d ∨ a = k := by
  rw [dictKeys_dictInsert]
  by_cases h : k ∈ dictKeys d
  · rw [if_pos h]
    constructor
    · exact Or.inl
    · rintro (ha | rfl)
      · exact ha
      · exact h
  · rw [if_neg h]
    simp [List.mem_append]

theorem nodupKeys_dictInsert {K V : Type} [DecidableEq K] {d : List (K × V)}
    (k : K) (v : V) (h : NodupKeys d) : NodupKeys (dictInsert d k v) := by
  unfold NodupKeys at *
  rw [dictKeys_dictInsert]
  split <;> rename_i hm
  · exact h
  · simpa [List.nodup_append, hm] using h

theorem dictFind_dictInsert_self {K V : Type} [DecidableEq K] (d : List (K × V))
    (k : K) (v : V) : dictFind (dictInsert d k v) k = some v := by
  induction d with
  | nil => simp [dictInsert, dictFind]
  | cons kv rest ih =>
    obtain ⟨k', v'⟩ := kv
    by_cases h : k' = k <;> simp [dictInsert, dictFind, h, ih]

theorem dictFind_dictInsert_ne {K V : Type} [DecidableEq K] (d : List (K × V))
    (k k' : K) (v : V) (h : k' ≠ k) :
    dictFind (dictInsert d k v) k' = dictFind d k' := by
  induction d with
  | nil => simp [dictInsert, dictFind, Ne.symm h]
  | cons kv rest ih =>
    obtain ⟨k₀, v₀⟩ := kv
    by_cases h0 : k₀ = k
    · subst h0; simp [dictInsert, dictFind, Ne.symm h]
    · by_cases h1 : k₀ = k' <;> simp [dictInsert, dictFind, h0, h1, h, ih]

theorem dictInsert_of_not_mem {K V : Type} [DecidableEq K] {d : List (K × V)}
    {k : K} (v : V) (h : k ∉ dictKeys d) : dictInsert d k v = d ++ [(k, v)] := by
  induction d with
  | nil => simp [dictInsert]
  | cons kv rest ih =>
    obtain ⟨k', v'⟩ := kv
    simp only [dictKeys, List.map_cons, List.mem_cons, not_or] at h
    simp [dictInsert, Ne.symm h.1, ih (by simpa [dictKeys] using h.2)]

theorem foldl_dictInsert_eq_append {K V : Type} [DecidableEq K] (l : List (K × V)) :
    ∀ (d : List (K × V)), (∀ kv ∈ l, kv.1 ∉ dictKeys d) → NodupKeys l →
      l.foldl (fun d kv => dictInsert d kv.1 kv.2) d = d ++ l := by
  induction l with
  | nil => simp
  | cons kv rest ih =>
    intro d hd hl
    obtain ⟨k, v⟩ := kv
    simp only [List.foldl_cons]
    rw [dictInsert_of_not_mem v (hd (k, v) (List.mem_cons_self _ _))]
    rw [ih]
    · simp
    · intro kv' h'
      simp only [dictKeys, List.map_append, List.map_cons, List.map_nil,
        List.mem_append, List.mem_singleton, not_or]
      refine ⟨hd kv' (List.mem_cons_of_mem _ h'), ?_⟩
      have : kv'.1 ∈ (rest.map Prod.fst) := List.mem_map_of_mem _ h'
      unfold NodupKeys dictKeys at hl
      simp only [List.map_cons, List.nodup_cons] at hl
      exact fun hk => hl.1 (hk ▸ this)
    · unfold NodupKeys dictKeys at hl ⊢
      simp only [List.map_cons, List.nodup_cons] at hl
      exact hl.2

theorem dictOfPairs_eq_self {K V : Type} [DecidableEq K] {l : List (K × V)}
    (h : NodupKeys l) : dictOfPairs l = l := by
  unfold dictOfPairs
  rw [foldl_dictInsert_eq_append l [] (by simp [dictKeys]) h]
  simp

theorem nodupKeys_foldl_dictInsert {K V : Type} [DecidableEq K] (l : List (K × V)) :
    ∀ (d : List (K × V)), NodupKeys d →
      NodupKeys (l.foldl (fun d kv => dictInsert d kv.1 kv.2) d) := by
  induction l with
  | nil => intro d hd; simpa using hd
  | cons kv rest ih =>
    intro d hd
    simp only [List.foldl_cons]
    exact ih _ (nodupKeys_dictInsert _ _ hd)

theorem nodupKeys_dictOfPairs {K V : Type} [DecidableEq K] (l : List (K × V)) :
    NodupKeys (dictOfPairs l) :=
  nodupKeys_foldl_dictInsert l [] (by simp [NodupKeys, dictKeys])

theorem mem_dictKeys_foldl_dictInsert {K V : Type} [DecidableEq K] (l : List (K × V)) :
    ∀ (d : List (K × V)) (a : K),
      a ∈ dictKeys (l.foldl (fun d kv => dictInsert d kv.1 kv.2) d) →
      a ∈ dictKeys d ∨ a ∈ l.map Prod.fst := by
  induction l with
  | nil => intro d a h; exact Or.inl (by simpa using h)
  | cons kv rest ih =>
    intro d a h
    simp only [List.foldl_cons] at h
    rcases ih _ a h with h' | h'
    · rcases mem_dictKeys_dictInsert.mp h' with h'' | h''
      · exact Or.inl h''
      · exact Or.inr (by simp [h''])
    · exact Or.inr (by simp [h'])

theorem mem_dictKeys_dictOfPairs {K V : Type} [DecidableEq K] {l : List (K × V)} {a : K}
    (h : a ∈ dictKeys (dictOfPairs l)) : a ∈ l.map Prod.fst := by
  rcases mem_dictKeys_foldl_dictInsert l [] a h with h' | h'
  · simp [dictKeys] at h'
  · exact h'

theorem dictFind_filter_key {K V : Type} [DecidableEq K] (q : K → Bool)
    (l : List (K × V)) (k : K) :
    dictFind (l.filter (fun kv => q kv.1)) k = if q k then dictFind l k else none := by
  induction l with
  | nil => simp [dictFind]
  | cons kv rest ih =>
    obtain ⟨k', v'⟩ := kv
    by_cases hk : k' = k
    · subst hk
      by_cases hq : q k' <;> simp [List.filter_cons, hq, dictFind, ih]
    · by_cases hq : q k' <;> simp [List.filter_cons, hq, dictFind, hk, ih]

/-! ## Batch-processing lemmas -/

theorem processNew_cons {V : Type} (calcFn : Path → Option V) (c : List (Path × V))
    (f : Path) (rest : List Path) :
    processNew calcFn c (f :: rest) =
      processNew calcFn (collectResult c f (calcFn f)) rest := rfl

theorem dictFind_processNew_not_mem {V : Type} (calcFn : Path → Option V)
    (order : List Path) :
    ∀ (c : List (Path × V)) (k : Path), k ∉ order →
      dictFind (processNew calcFn c order) k = dictFind c k := by
  induction order with
  | nil => intro c k _; rfl
  | cons f rest ih =>
    intro c k hk
    simp only [List.mem_cons, not_or] at hk
    rw [processNew_cons]
    cases calcFn f with
    | none => exact ih c k hk.2
    | some l => exact (ih _ k hk.2).trans (dictFind_dictInsert_ne c f k l hk.1)

theorem mem_dictKeys_processNew {V : Type} (calcFn : Path → Option V)
    (order : List Path) :
    ∀ (c : List (Path × V)) (a : Path),
      a ∈ dictKeys (processNew calcFn c order) →
      a ∈ dictKeys c ∨ (a ∈ order ∧ (calcFn a).isSome = true) := by
  induction order with
  | nil => intro c a h; exact Or.inl h
  | cons f rest ih =>
    intro c a h
    rw [processNew_cons] at h
    cases hcf : calcFn f with
    | none =>
      rw [hcf] at h
      rcases ih c a h with h' | ⟨h1, h2⟩
      · exact Or.inl h'
      · exact Or.inr ⟨List.mem_cons_of_mem _ h1, h2⟩
    | some l =>
      rw [hcf] at h
      rcases ih (dictInsert c f l) a h with h' | ⟨h1, h2⟩
      · rcases mem_dictKeys_dictInsert.mp h' with h'' | rfl
        · exact Or.inl h''
        · exact Or.inr ⟨List.mem_cons_self _ _, by simp [hcf]⟩
      · exact Or.inr ⟨List.mem_cons_of_mem _ h1, h2⟩

theorem nodupKeys_processNew {V : Type} (calcFn : Path → Option V)
    (order : List Path) :
    ∀ (c : List (Path × V)), NodupKeys c → NodupKeys (processNew calcFn c order) := by
  induction order with
  | nil => intro c hc; exact hc
  | cons f rest ih =>
    intro c hc
    rw [processNew_cons]
    cases calcFn f with
    | none => exact ih c hc
    | some l => exact ih _ (nodupKeys_dictInsert f l hc)

/-! ## Path normalization lemmas -/

theorem foldl_normStep_canon (l : List String) :
    ∀ (acc : List String), CanonPath l → l.foldl normStep acc = acc ++ l := by
  induction l with
  | nil => simp
  | cons c rest ih =>
    intro acc hl
    have hc := hl c (List.mem_cons_self _ _)
    simp only [isCanonName, Bool.and_eq_true, decide_eq_true_eq] at hc
    rw [List.foldl_cons]
    have hstep : normStep acc c = acc ++ [c] := by
      unfold normStep
      rw [if_neg (by tauto), if_neg hc.2]
    rw [hstep, ih (acc ++ [c]) (fun x hx => hl x (List.mem_cons_of_mem _ hx))]
    simp

theorem normalize_canon {p : Path} (hp : CanonPath p) : normalize p = p := by
  unfold normalize
  rw [foldl_normStep_canon p [] hp]
  simp

theorem canonPath_normStep (acc : List String) (c : String) (h : CanonPath acc) :
    CanonPath (normStep acc c) := by
  unfold normStep
  by_cases h1 : c = "" ∨ c = "."
  · rw [if_pos h1]; exact h
  · rw [if_neg h1]
    by_cases h2 : c = ".."
    · rw [if_pos h2]
      exact fun x hx => h x (List.dropLast_subset _ hx)
    · rw [if_neg h2]
      intro x hx
      rcases List.mem_append.mp hx with hx1 | hx2
      · exact h x hx1
      · have hxc : x = c := by simpa using hx2
        subst hxc
        push_neg at h1
        simp only [isCanonName, Bool.and_eq_true, decide_eq_true_eq]
        exact ⟨⟨h1.1, h1.2⟩, h2⟩

theorem canonPath_foldl_normStep (l : List String) :
    ∀ (acc : List String), CanonPath acc → CanonPath (l.foldl normStep acc) := by
  induction l with
  | nil => intro acc h; exact h
  | cons c rest ih =>
    intro acc h
    rw [List.foldl_cons]
    exact ih _ (canonPath_normStep acc c h)

theorem canonPath_normalize (p : List String) : CanonPath (normalize p) :=
  canonPath_foldl_normStep p [] (by intro x hx; simp at hx)

theorem foldl_normStep_replicate (n : Nat) :
    ∀ (a b : List String), b.length = n →
      List.foldl normStep (a ++ b) (List.replicate n "..") = a := by
  induction n with
  | zero =>
    intro a b hb
    rw [List.length_eq_zero.mp hb]
    simp
  | succ n ih =>
    intro a b hb
    have hb' : b ≠ [] := by intro hh; rw [hh] at hb; simp at hb
    rw [List.replicate_succ, List.foldl_cons]
    have hstep : normStep (a ++ b) ".." = a ++ b.dropLast := by
      unfold normStep
      rw [if_neg (by simp), if_pos rfl]
      exact List.dropLast_append_of_ne_nil a hb'
    rw [hstep]
    exact ih a b.dropLast (by rw [List.length_dropLast, hb]; rfl)

theorem stripCommon_spec : ∀ (p q : List String),
    ∃ c, p = c ++ (stripCommon p q).1 ∧ q = c ++ (stripCommon p q).2
  | [], q => ⟨[], by simp [stripCommon]⟩
  | a :: as, [] => ⟨[], by simp [stripCommon]⟩
  | a :: as, b :: bs => by
    by_cases h : a = b
    · obtain ⟨c, h1, h2⟩ := stripCommon_spec as bs
      subst h
      refine ⟨a :: c, ?_, ?_⟩ <;> simp [stripCommon, ← h1, ← h2]
    · exact ⟨[], by simp [stripCommon, h]⟩

theorem abspath_rel (cwd : Path) (q : List String) :
    abspath cwd (Key.rel q) = normalize (cwd ++ q) := rfl

theorem abspath_relpath {cwd p : Path} (hc : CanonPath cwd) (hp : CanonPath p) :
    abspath cwd (Key.rel (relpath cwd p)) = p := by
  obtain ⟨common, hp1, hc1⟩ := stripCommon_spec p cwd
  have hpr : CanonPath (stripCommon p cwd).1 := by
    intro x hx; exact hp x (by rw [hp1]; exact List.mem_append_right _ hx)
  rw [abspath_rel]
  simp only [relpath]
  set pr := (stripCommon p cwd).1 with hprdef
  set cr := (stripCommon p cwd).2 with hcrdef
  by_cases hr : (cr.map fun _ => (".." : String)) ++ pr = []
  · rw [if_pos hr]
    rcases List.append_eq_nil.mp hr with ⟨hr2, hr1⟩
    have hcr : cr = [] := by simpa using hr2
    rw [hr1, List.append_nil] at hp1
    rw [hcr, List.append_nil] at hc1
    unfold normalize
    rw [List.foldl_append, foldl_normStep_canon cwd [] hc, List.nil_append]
    have hdot : normStep cwd "." = cwd := by unfold normStep; rw [if_pos (Or.inr rfl)]
    rw [List.foldl_cons, hdot, List.foldl_nil, hc1, hp1]
  · rw [if_neg hr]
    unfold normalize
    rw [← List.append_assoc]
    rw [List.foldl_append, List.foldl_append, foldl_normStep_canon cwd [] hc,
      List.nil_append]
    rw [List.map_const']
    rw [hc1]
    rw [foldl_normStep_replicate _ common cr rfl]
    rw [foldl_normStep_canon _ common hpr]
    exact hp1.symm

/-! ## Cache persistence lemmas -/

theorem nodupKeys_load_cache {V : Type} (cwd : Path) (cf : CacheFile V) :
    NodupKeys (load_cache cwd cf) := by
  cases cf with
  | absent => simp [load_cache, NodupKeys, dictKeys]
  | corrupt => simp [load_cache, NodupKeys, dictKeys]
  | content entries => exact nodupKeys_dictOfPairs _

theorem canonPath_of_mem_dictKeys_load_cache {V : Type} {cwd : Path}
    {cf : CacheFile V} {k : Path} (h : k ∈ dictKeys (load_cache cwd cf)) :
    CanonPath k := by
  cases cf with
  | absent => simp [load_cache, dictKeys] at h
  | corrupt => simp [load_cache, dictKeys] at h
  | content entries =>
    have h' := mem_dictKeys_dictOfPairs h
    rcases List.mem_map.mp h' with ⟨kv, _, rfl⟩
    rcases List.mem_map.mp ‹kv ∈ _› with ⟨kv', _, rfl⟩
    cases kv'.1 <;> exact canonPath_normalize _

theorem load_save_roundtrip_aux {V : Type} {cwd : Path} {cache : List (Path × V)}
    (hcwd : CanonPath cwd) (hkeys : ∀ kv ∈ cache, CanonPath kv.1)
    (hnd : NodupKeys cache) :
    load_cache cwd (save_cache cwd cache) = cache := by
  unfold save_cache load_cache
  set m := cache.map (fun kv => (Key.rel (relpath cwd kv.1), kv.2)) with hm
  have hkeyeq : m.map Prod.fst =
      (cache.map Prod.fst).map (fun k => Key.rel (relpath cwd k)) := by
    rw [hm, List.map_map, List.map_map]; rfl
  have hmnd : NodupKeys m := by
    unfold NodupKeys dictKeys
    rw [hkeyeq]
    refine List.Nodup.map_on ?_ hnd
    intro x hx y hy hxy
    have hcx : CanonPath x := by
      rcases List.mem_map.mp hx with ⟨kv, hkv, rfl⟩; exact hkeys kv hkv
    have hcy : CanonPath y := by
      rcases List.mem_map.mp hy with ⟨kv, hkv, rfl⟩; exact hkeys kv hkv
    have habs : abspath cwd (Key.rel (relpath cwd x)) =
        abspath cwd (Key.rel (relpath cwd y)) := by
      injection hxy with h; rw [h]
    rwa [abspath_relpath hcwd hcx, abspath_relpath hcwd hcy] at habs
  rw [dictOfPairs_eq_self hmnd]
  have hmap : m.map (fun kv => (abspath cwd kv.1, kv.2)) = cache := by
    rw [hm, List.map_map]
    have hpt : ∀ kv ∈ cache,
        ((fun kv => (abspath cwd kv.1, kv.2)) ∘
          fun kv => (Key.rel (relpath cwd kv.1), kv.2)) kv = id kv := by
      intro kv hkv
      simp only [Function.comp_apply, id_eq]
      rw [abspath_relpath hcwd (hkeys kv hkv)]
    rw [List.map_congr_left hpt, List.map_id]
  show dictOfPairs (m.map fun kv => (abspath cwd kv.1, kv.2)) = cache
  rw [hmap, dictOfPairs_eq_self hnd]

/-! ## Scanner lemmas -/

theorem globRecMatch_iff (ext : String) : ∀ (rest : List String),
    globRecMatch ext rest = true ↔
      ∃ ds name, rest = ds ++ [name] ∧ (∀ d ∈ ds, hiddenName d = false) ∧
        globNameMatch ext name = true
  | [] => by
    constructor
    · intro h; simp [globRecMatch] at h
    · rintro ⟨ds, name, h, -, -⟩
      exact absurd h (by simp)
  | [name] => by
    constructor
    · intro h
      exact ⟨[], name, rfl, by simp, by simpa [globRecMatch] using h⟩
    · rintro ⟨ds, name', h, -, hn⟩
      have hds : ds = [] := by
        have hlen := congrArg List.length h
        simp at hlen
        exact hlen
      subst hds
      simp only [List.nil_append, List.cons.injEq] at h
      rw [show globRecMatch ext [name] = globNameMatch ext name from rfl, h.1]
      exact hn
  | d :: e :: rest => by
    rw [show globRecMatch ext (d :: e :: rest) =
      (!hiddenName d && globRecMatch ext (e :: rest)) from rfl]
    rw [Bool.and_eq_true, Bool.not_eq_true']
    constructor
    · rintro ⟨hd, h⟩
      obtain ⟨ds, name, h1, h2, h3⟩ := (globRecMatch_iff ext (e :: rest)).mp h
      refine ⟨d :: ds, name, by simp [h1], ?_, h3⟩
      intro x hx
      rcases List.mem_cons.mp hx with rfl | hx'
      · exact hd
      · exact h2 x hx'
    · rintro ⟨ds, name, h1, h2, h3⟩
      cases ds with
      | nil =>
        have hlen := congrArg List.length h1
        simp at hlen
      | cons d' ds' =>
        rw [List.cons_append] at h1
        injection h1 with hd htl
        subst hd
        refine ⟨h2 d (List.mem_cons_self _ _), ?_⟩
        exact (globRecMatch_iff ext (e :: rest)).mpr
          ⟨ds', name, htl, fun x hx => h2 x (List.mem_cons_of_mem _ hx), h3⟩

theorem matchesUnder_iff {folder : Path} {ext : String} {p : Path} :
    matchesUnder folder ext p = true ↔
      ∃ ds name, p = folder ++ ds ++ [name] ∧ (∀ d ∈ ds, hiddenName d = false) ∧
        globNameMatch ext name = true := by
  unfold matchesUnder
  rw [Bool.and_eq_true, List.isPrefixOf_iff_prefix]
  constructor
  · rintro ⟨⟨t, rfl⟩, hm⟩
    rw [List.drop_left] at hm
    obtain ⟨ds, name, h1, h2, h3⟩ := (globRecMatch_iff ext t).mp hm
    exact ⟨ds, name, by rw [h1, List.append_assoc], h2, h3⟩
  · rintro ⟨ds, name, rfl, h2, h3⟩
    refine ⟨⟨ds ++ [name], by rw [List.append_assoc]⟩, ?_⟩
    rw [List.append_assoc, List.drop_left]
    exact (globRecMatch_iff ext _).mpr ⟨ds, name, rfl, h2, h3⟩

theorem mem_get_audio_files {fs : FS} {folder p : Path} :
    p ∈ get_audio_files fs folder ↔
      p ∈ fs.files ∧ ∃ ext ∈ audio_extensions,
        (matchesUnder folder ext p = true ∨
         matchesUnder folder (strToUpper ext) p = true) := by
  unfold get_audio_files
  simp only [List.mem_flatMap, List.mem_append, List.mem_filter]
  constructor
  · rintro ⟨ext, hext, h | h⟩
    · exact ⟨h.1, ext, hext, Or.inl h.2⟩
    · exact ⟨h.1, ext, hext, Or.inr h.2⟩
  · rintro ⟨hp, ext, hext, h | h⟩
    · exact ⟨ext, hext, Or.inl ⟨hp, h⟩⟩
    · exact ⟨ext, hext, Or.inr ⟨hp, h⟩⟩

/-! ## Run anatomy and invariants -/

theorem contains_iff_mem {l : List Path} {a : Path} :
    l.contains a = true ↔ a ∈ l := by
  simp [List.contains, List.elem_iff]

theorem sort_songs_neg {V : Type} [LinearOrder V] (fs : FS) (cwd folder : Path)
    (disk : CacheFile V) (calcFn : Path → Option V) (sched : List Path → List Path)
    (h : newFilesOf (get_audio_files fs folder)
          (reconcile (load_cache cwd disk) (get_audio_files fs folder)) = []) :
    sort_songs_by_loudness fs cwd folder disk calcFn sched =
      { report := sortReport (reconcile (load_cache cwd disk) (get_audio_files fs folder))
          (get_audio_files fs folder),
        cacheEnd := reconcile (load_cache cwd disk) (get_audio_files fs folder),
        diskEnd := disk,
        newFiles := newFilesOf (get_audio_files fs folder)
          (reconcile (load_cache cwd disk) (get_audio_files fs folder)) } := by
  simp only [sort_songs_by_loudness]
  rw [if_pos (by simp [h])]

theorem sort_songs_pos {V : Type} [LinearOrder V] (fs : FS) (cwd folder : Path)
    (disk : CacheFile V) (calcFn : Path → Option V) (sched : List Path → List Path)
    (h : newFilesOf (get_audio_files fs folder)
          (reconcile (load_cache cwd disk) (get_audio_files fs folder)) ≠ []) :
    sort_songs_by_loudness fs cwd folder disk calcFn sched =
      { report := sortReport
          (processNew calcFn (reconcile (load_cache cwd disk) (get_audio_files fs folder))
            (sched (newFilesOf (get_audio_files fs folder)
              (reconcile (load_cache cwd disk) (get_audio_files fs folder)))))
          (get_audio_files fs folder),
        cacheEnd := processNew calcFn
          (reconcile (load_cache cwd disk) (get_audio_files fs folder))
          (sched (newFilesOf (get_audio_files fs folder)
            (reconcile (load_cache cwd disk) (get_audio_files fs folder)))),
        diskEnd := save_cache cwd (processNew calcFn
          (reconcile (load_cache cwd disk) (get_audio_files fs folder))
          (sched (newFilesOf (get_audio_files fs folder)
            (reconcile (load_cache cwd disk) (get_audio_files fs folder))))),
        newFiles := newFilesOf (get_audio_files fs folder)
          (reconcile (load_cache cwd disk) (get_audio_files fs folder)) } := by
  simp only [sort_songs_by_loudness]
  rw [if_neg (by simp [h])]

theorem sort_songs_newFiles {V : Type} [LinearOrder V] (fs : FS) (cwd folder : Path)
    (disk : CacheFile V) (calcFn : Path → Option V) (sched : List Path → List Path) :
    (sort_songs_by_loudness fs cwd folder disk calcFn sched).newFiles =
      newFilesOf (get_audio_files fs folder)
        (reconcile (load_cache cwd disk) (get_audio_files fs folder)) := by
  by_cases h : newFilesOf (get_audio_files fs folder)
      (reconcile (load_cache cwd disk) (get_audio_files fs folder)) = []
  · rw [sort_songs_neg fs cwd folder disk calcFn sched h]
  · rw [sort_songs_pos fs cwd folder disk calcFn sched h]

theorem sort_songs_report {V : Type} [LinearOrder V] (fs : FS) (cwd folder : Path)
    (disk : CacheFile V) (calcFn : Path → Option V) (sched : List Path → List Path) :
    (sort_songs_by_loudness fs cwd folder disk calcFn sched).report =
      sortReport (sort_songs_by_loudness fs cwd folder disk calcFn sched).cacheEnd
        (get_audio_files fs folder) := by
  by_cases h : newFilesOf (get_audio_files fs folder)
      (reconcile (load_cache cwd disk) (get_audio_files fs folder)) = []
  · rw [sort_songs_neg fs cwd folder disk calcFn sched h]
  · rw [sort_songs_pos fs cwd folder disk calcFn sched h]

theorem nodupKeys_reconcile {V : Type} (c : List (Path × V)) (files : List Path) :
    NodupKeys (reconcile c files) :=
  nodupKeys_dictOfPairs _

theorem mem_dictKeys_reconcile {V : Type} {c : List (Path × V)} {files : List Path}
    {k : Path} (h : k ∈ dictKeys (reconcile c files)) :
    k ∈ dictKeys c ∧ files.contains k = true := by
  have h' := mem_dictKeys_dictOfPairs h
  rcases List.mem_map.mp h' with ⟨kv, hkv, rfl⟩
  rcases List.mem_filter.mp hkv with ⟨h1, h2⟩
  exact ⟨List.mem_map_of_mem _ h1, h2⟩

theorem dictFind_reconcile {V : Type} {c : List (Path × V)} (files : List Path)
    (k : Path) (hnd : NodupKeys c) :
    dictFind (reconcile c files) k =
      if files.contains k = true then dictFind c k else none := by
  unfold reconcile
  have hsub : NodupKeys (c.filter fun kv => files.contains kv.1) := by
    unfold NodupKeys dictKeys at hnd ⊢
    exact ((List.filter_sublist c).map Prod.fst).nodup hnd
  rw [dictOfPairs_eq_self hsub, dictFind_filter_key]

theorem mem_newFilesOf {V : Type} {files : List Path} {c : List (Path × V)}
    {f : Path} : f ∈ newFilesOf files c ↔ f ∈ files ∧ dictMem c f = false := by
  simp [newFilesOf, List.mem_filter, Bool.not_eq_true']

theorem reconcile_eq_self {V : Type} {c : List (Path × V)} {files : List Path}
    (hnd : NodupKeys c) (hkeys : ∀ k ∈ dictKeys c, files.contains k = true) :
    reconcile c files = c := by
  unfold reconcile
  have hf : c.filter (fun kv => files.contains kv.1) = c :=
    List.filter_eq_self.mpr (fun kv hkv => hkeys kv.1 (List.mem_map_of_mem _ hkv))
  rw [hf, dictOfPairs_eq_self hnd]

theorem nodupKeys_cacheEnd {V : Type} [LinearOrder V] (fs : FS) (cwd folder : Path)
    (disk : CacheFile V) (calcFn : Path → Option V) (sched : List Path → List Path) :
    NodupKeys (sort_songs_by_loudness fs cwd folder disk calcFn sched).cacheEnd := by
  by_cases h : newFilesOf (get_audio_files fs folder)
      (reconcile (load_cache cwd disk) (get_audio_files fs folder)) = []
  · rw [sort_songs_neg fs cwd folder disk calcFn sched h]
    exact nodupKeys_reconcile _ _
  · rw [sort_songs_pos fs cwd folder disk calcFn sched h]
    exact nodupKeys_processNew calcFn _ _ (nodupKeys_reconcile _ _)

theorem mem_dictKeys_cacheEnd {V : Type} [LinearOrder V] {fs : FS} {cwd folder : Path}
    {disk : CacheFile V} {calcFn : Path → Option V} {sched : List Path → List Path}
    (hsched : ∀ l, (sched l).Perm l) {k : Path}
    (hk : k ∈ dictKeys (sort_songs_by_loudness fs cwd folder disk calcFn sched).cacheEnd) :
    k ∈ get_audio_files fs folder := by
  by_cases h : newFilesOf (get_audio_files fs folder)
      (reconcile (load_cache cwd disk) (get_audio_files fs folder)) = []
  · rw [sort_songs_neg fs cwd folder disk calcFn sched h] at hk
    exact contains_iff_mem.mp (mem_dictKeys_reconcile hk).2
  · rw [sort_songs_pos fs cwd folder disk calcFn sched h] at hk
    rcases mem_dictKeys_processNew calcFn _ _ k hk with h' | ⟨h1, -⟩
    · exact contains_iff_mem.mp (mem_dictKeys_reconcile h').2
    · exact (mem_newFilesOf.mp ((hsched _).mem_iff.mp h1)).1

theorem canonPath_of_mem_dictKeys_cacheEnd {V : Type} [LinearOrder V] {fs : FS}
    {cwd folder : Path} {disk : CacheFile V} {calcFn : Path → Option V}
    {sched : List Path → List Path} (hwf : fs.Wf) (hsched : ∀ l, (sched l).Perm l)
    {k : Path}
    (hk : k ∈ dictKeys (sort_songs_by_loudness fs cwd folder disk calcFn sched).cacheEnd) :
    CanonPath k := by
  by_cases h : newFilesOf (get_audio_files fs folder)
      (reconcile (load_cache cwd disk) (get_audio_files fs folder)) = []
  · rw [sort_songs_neg fs cwd folder disk calcFn sched h] at hk
    exact canonPath_of_mem_dictKeys_load_cache (mem_dictKeys_reconcile hk).1
  · rw [sort_songs_pos fs cwd folder disk calcFn sched h] at hk
    rcases mem_dictKeys_processNew calcFn _ _ k hk with h' | ⟨h1, -⟩
    · exact canonPath_of_mem_dictKeys_load_cache (mem_dictKeys_reconcile h').1
    · have hkf := (mem_newFilesOf.mp ((hsched _).mem_iff.mp h1)).1
      exact (hwf k (mem_get_audio_files.mp hkf).1).1

theorem sort_songs_diskEnd_pos {V : Type} [LinearOrder V] (fs : FS) (cwd folder : Path)
    (disk : CacheFile V) (calcFn : Path → Option V) (sched : List Path → List Path)
    (h : (sort_songs_by_loudness fs cwd folder disk calcFn sched).newFiles ≠ []) :
    (sort_songs_by_loudness fs cwd folder disk calcFn sched).diskEnd =
      save_cache cwd (sort_songs_by_loudness fs cwd folder disk calcFn sched).cacheEnd := by
  rw [sort_songs_newFiles] at h
  rw [sort_songs_pos fs cwd folder disk calcFn sched h]

theorem run_of_no_new_files {V : Type} [LinearOrder V] (fs : FS) (cwd folder : Path)
    (disk : CacheFile V) (calcFn : Path → Option V) (sched : List Path → List Path)
    (calcFn' : Path → Option V) (sched' : List Path → List Path)
    (h : (sort_songs_by_loudness fs cwd folder disk calcFn sched).newFiles = []) :
    sort_songs_by_loudness fs cwd folder disk calcFn' sched' =
      sort_songs_by_loudness fs cwd folder disk calcFn sched := by
  rw [sort_songs_newFiles] at h
  rw [sort_songs_neg fs cwd folder disk calcFn sched h,
    sort_songs_neg fs cwd folder disk calcFn' sched' h]

/-! ## Claims -/

/-- C1, as stated, is false: the spec says the scanner keeps exactly the
files whose extension is case-insensitively in the allow-list, but glob only
matches the all-lowercase and all-uppercase spellings.  The file
`music/song.Mp3` has (case-insensitive) extension `mp3`, yet the scan of
`music` misses it. -/
theorem get_audio_files_mixed_case_cex :
    (["music", "song.Mp3"] : Path) ∈ FS.files ⟨[["music", "song.Mp3"]]⟩ ∧
    (["music"] : Path) <+: ["music", "song.Mp3"] ∧
    strToLower (extensionOf "song.Mp3") ∈ audio_extensions ∧
    (["music", "song.Mp3"] : Path) ∉ get_audio_files ⟨[["music", "song.Mp3"]]⟩ ["music"] :=
  ⟨by simp, ⟨["song.Mp3"], rfl⟩, by decide, by decide⟩

/-- C1 (amended): the scan returns exactly the files under the root that are
reached through non-hidden directories, are not hidden themselves, and whose
name ends in a dot followed by an allow-listed extension spelled either
all-lowercase or all-uppercase; mixed-case extensions and hidden
files/directories are excluded. -/
theorem get_audio_files_characterization (fs : FS) (folder p : Path) :
    p ∈ get_audio_files fs folder ↔
      p ∈ fs.files ∧ ∃ ds name, p = folder ++ ds ++ [name] ∧
        (∀ d ∈ ds, hiddenName d = false) ∧ hiddenName name = false ∧
        ∃ ext ∈ audio_extensions,
          (strEndsWith name ("." ++ ext) = true ∨
           strEndsWith name ("." ++ strToUpper ext) = true) := by
  rw [mem_get_audio_files]
  constructor
  · rintro ⟨hp, ext, hext, hm | hm⟩ <;>
    · obtain ⟨ds, name, h1, h2, h3⟩ := matchesUnder_iff.mp hm
      rw [globNameMatch, Bool.and_eq_true, Bool.not_eq_true'] at h3
      first
        | exact ⟨hp, ds, name, h1, h2, h3.2, ext, hext, Or.inl h3.1⟩
        | exact ⟨hp, ds, name, h1, h2, h3.2, ext, hext, Or.inr h3.1⟩
  · rintro ⟨hp, ds, name, h1, h2, hh, ext, hext, he | he⟩
    · refine ⟨hp, ext, hext, Or.inl (matchesUnder_iff.mpr ⟨ds, name, h1, h2, ?_⟩)⟩
      rw [globNameMatch, Bool.and_eq_true, Bool.not_eq_true']
      exact ⟨he, hh⟩
    · refine ⟨hp, ext, hext, Or.inr (matchesUnder_iff.mpr ⟨ds, name, h1, h2, ?_⟩)⟩
      rw [globNameMatch, Bool.and_eq_true, Bool.not_eq_true']
      exact ⟨he, hh⟩

/-- C2 fails on the code, whose intent the claim states: `load_cache` catches
only `json.JSONDecodeError`.  An absent file and unparseable text do yield
the empty cache as claimed, and a JSON object loads exactly as the run's
`load_cache` does; but a cache file holding valid JSON that is not an object
(such as the array `[1, 2, 3]`) makes loading raise an uncaught
`AttributeError` at `cache.items()`, and bytes that do not decode as text
raise an uncaught `UnicodeDecodeError` inside `json.load` — so loading does
crash the program for some file contents. -/
theorem load_cache_crash_on_unexpected_content (V : Type) (cwd : Path) :
    load_cache_checked (V := V) cwd CacheFileBytes.absent = Except.ok [] ∧
    load_cache_checked (V := V) cwd CacheFileBytes.unparseable = Except.ok [] ∧
    (∀ entries : List (Key × V),
      load_cache_checked cwd (CacheFileBytes.object entries) =
        Except.ok (load_cache cwd (CacheFile.content entries))) ∧
    load_cache_checked (V := V) cwd CacheFileBytes.nonObject =
      Except.error PyError.attributeError ∧
    load_cache_checked (V := V) cwd CacheFileBytes.undecodable =
      Except.error PyError.unicodeDecodeError :=
  ⟨rfl, rfl, fun _ => rfl, rfl, rfl⟩

/-- C9: when the root does not exist or is not a directory — i.e. no file of
the filesystem lies strictly below it — the scan returns the empty list
instead of failing, and the whole run still completes with an empty report. -/
theorem get_audio_files_empty_of_missing_root (V : Type) [LinearOrder V] (fs : FS)
    (cwd folder : Path) (disk : CacheFile V) (calcFn : Path → Option V)
    (sched : List Path → List Path)
    (h : ∀ p ∈ fs.files, folder <+: p → p = folder) :
    get_audio_files fs folder = [] ∧
    (sort_songs_by_loudness fs cwd folder disk calcFn sched).report = [] := by
  have hempty : get_audio_files fs folder = [] := by
    rw [List.eq_nil_iff_forall_not_mem]
    intro p hp
    rcases mem_get_audio_files.mp hp with ⟨hpf, ext, -, hm | hm⟩ <;>
    · obtain ⟨ds, name, h1, -, -⟩ := matchesUnder_iff.mp hm
      have hpre : folder <+: p := ⟨ds ++ [name], by rw [h1, List.append_assoc]⟩
      have hfold := h p hpf hpre
      rw [hfold] at h1
      have hlen := congrArg List.length h1
      simp at hlen
  refine ⟨hempty, ?_⟩
  rw [sort_songs_report]
  unfold sortReport
  rw [hempty]
  have hfilter : ((sort_songs_by_loudness fs cwd folder disk calcFn sched).cacheEnd.filter
      fun kv => ([] : List Path).contains kv.1) = [] :=
    List.filter_eq_nil_iff.mpr (fun kv _ => by simp [List.contains])
  rw [hfilter, List.mergeSort_nil]

/-- Witness for C9 at a concrete filesystem whose only file is not under the
requested root. -/
theorem get_audio_files_empty_of_missing_root_witness :
    (∀ p ∈ FS.files ⟨[["a", "x.mp3"]]⟩, (["b"] : Path) <+: p → p = ["b"]) ∧
    (get_audio_files ⟨[["a", "x.mp3"]]⟩ ["b"] = [] ∧
     (sort_songs_by_loudness (V := Int) ⟨[["a", "x.mp3"]]⟩ [] ["b"] CacheFile.absent
        (fun _ => none) id).report = []) :=
  ⟨by decide,
    get_audio_files_empty_of_missing_root Int ⟨[["a", "x.mp3"]]⟩ [] ["b"]
      CacheFile.absent (fun _ => none) id (by decide)⟩

/-- C8: saving a cache (keys rewritten relative to the working directory) and
loading it back (keys made absolute again) restores the original cache
exactly, for any cache whose keys are canonical absolute paths. -/
theorem load_save_roundtrip (V : Type) (cwd : Path) (cache : List (Path × V))
    (hcwd : CanonPath cwd) (hkeys : ∀ kv ∈ cache, CanonPath kv.1)
    (hnd : NodupKeys cache) :
    load_cache cwd (save_cache cwd cache) = cache :=
  load_save_roundtrip_aux hcwd hkeys hnd

/-- Witness for C8 on a concrete two-entry cache, with one key below the
working directory and one elsewhere. -/
theorem load_save_roundtrip_witness :
    CanonPath ["home", "u"] ∧
    (∀ kv ∈ [((["m", "a.mp3"] : Path), (2 : Int)), (["home", "u", "b.wav"], 5)],
      CanonPath kv.1) ∧
    NodupKeys [((["m", "a.mp3"] : Path), (2 : Int)), (["home", "u", "b.wav"], 5)] ∧
    load_cache ["home", "u"] (save_cache ["home", "u"]
        [((["m", "a.mp3"] : Path), (2 : Int)), (["home", "u", "b.wav"], 5)]) =
      [((["m", "a.mp3"] : Path), (2 : Int)), (["home", "u", "b.wav"], 5)] :=
  ⟨by decide, by decide, by decide,
    load_save_roundtrip Int ["home", "u"] _ (by decide) (by decide) (by decide)⟩

/-- C7: the report is ascending in the loudness component at every
consecutive pair, and every reported entry is an entry of the final cache
whose file is in the current scan. -/
theorem report_sorted_and_consistent (V : Type) [LinearOrder V] (fs : FS)
    (cwd folder : Path) (disk : CacheFile V) (calcFn : Path → Option V)
    (sched : List Path → List Path) :
    List.Chain' (fun a b : Path × V => a.2 ≤ b.2)
      (sort_songs_by_loudness fs cwd folder disk calcFn sched).report ∧
    ∀ kv ∈ (sort_songs_by_loudness fs cwd folder disk calcFn sched).report,
      kv ∈ (sort_songs_by_loudness fs cwd folder disk calcFn sched).cacheEnd ∧
      kv.1 ∈ get_audio_files fs folder := by
  constructor
  · rw [sort_songs_report]
    unfold sortReport
    have hs := @List.sorted_mergeSort _ (fun a b : Path × V => decide (a.2 ≤ b.2))
      (fun a b c h1 h2 => by
        simp only [decide_eq_true_eq] at h1 h2 ⊢; exact le_trans h1 h2)
      (fun a b => by simpa using le_total a.2 b.2)
      ((sort_songs_by_loudness fs cwd folder disk calcFn sched).cacheEnd.filter
        fun kv => (get_audio_files fs folder).contains kv.1)
    have hp : List.Pairwise (fun a b : Path × V => a.2 ≤ b.2)
        (((sort_songs_by_loudness fs cwd folder disk calcFn sched).cacheEnd.filter
          fun kv => (get_audio_files fs folder).contains kv.1).mergeSort
            fun a b => decide (a.2 ≤ b.2)) := by
      refine hs.imp ?_
      intro a b hab
      simpa using hab
    exact hp.chain'
  · intro kv hkv
    rw [sort_songs_report] at hkv
    unfold sortReport at hkv
    rw [List.mem_mergeSort] at hkv
    rcases List.mem_filter.mp hkv with ⟨h1, h2⟩
    exact ⟨h1, contains_iff_mem.mp h2⟩

/-- C10: the report never lists the same file twice — its entries are drawn
from a dictionary with unique keys — whatever the scanned file list (even one
with duplicates). -/
theorem report_keys_nodup (V : Type) [LinearOrder V] (fs : FS) (cwd folder : Path)
    (disk : CacheFile V) (calcFn : Path → Option V) (sched : List Path → List Path) :
    ((sort_songs_by_loudness fs cwd folder disk calcFn sched).report.map
      Prod.fst).Nodup := by
  rw [sort_songs_report]
  unfold sortReport
  have hperm := List.mergeSort_perm
    ((sort_songs_by_loudness fs cwd folder disk calcFn sched).cacheEnd.filter
      fun kv => (get_audio_files fs folder).contains kv.1)
    (fun a b : Path × V => decide (a.2 ≤ b.2))
  have hnd : (((sort_songs_by_loudness fs cwd folder disk calcFn sched).cacheEnd.filter
      fun kv => (get_audio_files fs folder).contains kv.1).map Prod.fst).Nodup :=
    ((List.filter_sublist _).map Prod.fst).nodup
      (nodupKeys_cacheEnd fs cwd folder disk calcFn sched)
  exact ((hperm.map Prod.fst).nodup_iff).mpr hnd

/-- C5: after the batch step, every key of the resulting cache is a currently
scanned file, and every scanned file that was already in the loaded cache
keeps its cached value — it is never recomputed. -/
theorem batch_cache_keys_and_preservation (V : Type) [LinearOrder V] (fs : FS)
    (cwd folder : Path) (disk : CacheFile V) (calcFn : Path → Option V)
    (sched : List Path → List Path) (hsched : ∀ l, (sched l).Perm l) :
    (∀ k ∈ dictKeys (sort_songs_by_loudness fs cwd folder disk calcFn sched).cacheEnd,
        k ∈ get_audio_files fs folder) ∧
    (∀ k, k ∈ get_audio_files fs folder →
        dictMem (load_cache (V := V) cwd disk) k = true →
        dictFind (sort_songs_by_loudness fs cwd folder disk calcFn sched).cacheEnd k =
          dictFind (load_cache cwd disk) k) := by
  constructor
  · intro k hk
    exact mem_dictKeys_cacheEnd hsched hk
  · intro k hkf hkm
    have hnd0 := nodupKeys_load_cache (V := V) cwd disk
    have hfindrec : dictFind
        (reconcile (load_cache cwd disk) (get_audio_files fs folder)) k =
        dictFind (load_cache cwd disk) k := by
      rw [dictFind_reconcile _ k hnd0, if_pos (contains_iff_mem.mpr hkf)]
    have hmem1 : dictMem
        (reconcile (load_cache cwd disk) (get_audio_files fs folder)) k = true := by
      rw [dictMem, hfindrec]
      exact hkm
    by_cases h : newFilesOf (get_audio_files fs folder)
        (reconcile (load_cache cwd disk) (get_audio_files fs folder)) = []
    · rw [sort_songs_neg fs cwd folder disk calcFn sched h]
      exact hfindrec
    · rw [sort_songs_pos fs cwd folder disk calcFn sched h]
      have hknot : k ∉ sched (newFilesOf (get_audio_files fs folder)
          (reconcile (load_cache cwd disk) (get_audio_files fs folder))) := by
        intro hkin
        have hknew := (hsched _).mem_iff.mp hkin
        have hfalse := (mem_newFilesOf.mp hknew).2
        rw [hmem1] at hfalse
        cases hfalse
      rw [dictFind_processNew_not_mem calcFn _ _ k hknot]
      exact hfindrec

/-- Witness for C5 on a concrete run: one cached file, one new file. -/
theorem batch_cache_keys_and_preservation_witness :
    (∀ l : List Path, (id l).Perm l) ∧
    ((∀ k ∈ dictKeys (sort_songs_by_loudness (V := Int) ⟨[["m", "a.mp3"], ["m", "b.mp3"]]⟩
          [] ["m"] (CacheFile.content [(Key.rel ["m", "a.mp3"], 3)])
          (fun _ => some 7) id).cacheEnd,
        k ∈ get_audio_files ⟨[["m", "a.mp3"], ["m", "b.mp3"]]⟩ ["m"]) ∧
     (∀ k, k ∈ get_audio_files ⟨[["m", "a.mp3"], ["m", "b.mp3"]]⟩ ["m"] →
        dictMem (load_cache (V := Int) []
          (CacheFile.content [(Key.rel ["m", "a.mp3"], 3)])) k = true →
        dictFind (sort_songs_by_loudness (V := Int) ⟨[["m", "a.mp3"], ["m", "b.mp3"]]⟩
          [] ["m"] (CacheFile.content [(Key.rel ["m", "a.mp3"], 3)])
          (fun _ => some 7) id).cacheEnd k =
          dictFind (load_cache []
            (CacheFile.content [(Key.rel ["m", "a.mp3"], 3)])) k)) :=
  ⟨fun l => List.Perm.refl l,
    batch_cache_keys_and_preservation Int ⟨[["m", "a.mp3"], ["m", "b.mp3"]]⟩ [] ["m"]
      (CacheFile.content [(Key.rel ["m", "a.mp3"], 3)]) (fun _ => some 7) id
      (fun l => List.Perm.refl l)⟩

/-- C6: a file whose decode or measurement fails makes `calculate_loudness`
return the no-result indicator `none` (the embedded `try/except` never lets
the error escape), and the batch processor then adds no cache entry for that
file. -/
theorem failed_measurement_not_cached (V : Type) [LinearOrder V] (fs : FS)
    (cwd folder : Path) (disk : CacheFile V) (measure : Path → Except String V)
    (sched : List Path → List Path) (f : Path) (e : String)
    (hfail : measure f = Except.error e)
    (hnot : dictMem (load_cache (V := V) cwd disk) f = false) :
    calculate_loudness measure f = none ∧
    dictMem (sort_songs_by_loudness fs cwd folder disk
      (calculate_loudness measure) sched).cacheEnd f = false := by
  have hcalc : calculate_loudness measure f = none := by
    unfold calculate_loudness
    rw [hfail]
  refine ⟨hcalc, ?_⟩
  rw [dictMem_eq_false_iff]
  intro hk
  by_cases h : newFilesOf (get_audio_files fs folder)
      (reconcile (load_cache cwd disk) (get_audio_files fs folder)) = []
  · rw [sort_songs_neg fs cwd folder disk (calculate_loudness measure) sched h] at hk
    exact dictMem_eq_false_iff.mp hnot (mem_dictKeys_reconcile hk).1
  · rw [sort_songs_pos fs cwd folder disk (calculate_loudness measure) sched h] at hk
    rcases mem_dictKeys_processNew _ _ _ f hk with h' | ⟨-, h2⟩
    · exact dictMem_eq_false_iff.mp hnot (mem_dictKeys_reconcile h').1
    · rw [hcalc] at h2
      cases h2

/-- Witness for C6: a single corrupt file; its measurement errors, no cache
entry results. -/
theorem failed_measurement_not_cached_witness :
    ((fun _ : Path => (Except.error "decode" : Except String Int)) ["m", "bad.mp3"] =
      Except.error "decode") ∧
    dictMem (load_cache (V := Int) [] CacheFile.absent) ["m", "bad.mp3"] = false ∧
    (calculate_loudness (fun _ : Path => (Except.error "decode" : Except String Int))
        ["m", "bad.mp3"] = none ∧
     dictMem (sort_songs_by_loudness (V := Int) ⟨[["m", "bad.mp3"]]⟩ [] ["m"]
        CacheFile.absent
        (calculate_loudness fun _ => Except.error "decode") id).cacheEnd
        ["m", "bad.mp3"] = false) :=
  ⟨rfl, by decide,
    failed_measurement_not_cached Int ⟨[["m", "bad.mp3"]]⟩ [] ["m"] CacheFile.absent
      (fun _ => Except.error "decode") id ["m", "bad.mp3"] "decode" rfl (by decide)⟩

/-- C3, as stated, is false: when a cached file is deleted but no new file
appears, `new_files` is empty, so `save_cache` is never called and the
persisted cache file still contains the deleted file's entry after the run
(only the in-memory cache and the report drop it). -/
theorem stale_entry_persists_cex :
    dictMem (load_cache []
        (CacheFile.content [(Key.rel ["m", "d.mp3"], (5 : Int)),
          (Key.rel ["m", "a.mp3"], 3)])) ["m", "d.mp3"] = true ∧
    (["m", "d.mp3"] : Path) ∉ FS.files ⟨[["m", "a.mp3"]]⟩ ∧
    dictMem (load_cache []
        (sort_songs_by_loudness (V := Int) ⟨[["m", "a.mp3"]]⟩ [] ["m"]
          (CacheFile.content [(Key.rel ["m", "d.mp3"], 5), (Key.rel ["m", "a.mp3"], 3)])
          (fun _ => none) id).diskEnd) ["m", "d.mp3"] = true := by
  refine ⟨by decide, by decide, by decide⟩

/-- C3 (amended): after a run, a file no longer on disk never appears in the
report; and whenever the run performs a save at all — that is, when
`new_files` is non-empty — the persisted cache no longer contains an entry
for it.  (When `new_files` is empty the cache file is left untouched and may
keep the stale entry.) -/
theorem deleted_file_dropped (V : Type) [LinearOrder V] (fs : FS) (cwd folder : Path)
    (disk : CacheFile V) (calcFn : Path → Option V) (sched : List Path → List Path)
    (d : Path) (hwf : fs.Wf) (hcwd : CanonPath cwd)
    (hsched : ∀ l, (sched l).Perm l) (hd : d ∉ get_audio_files fs folder) :
    (∀ v, (d, v) ∉ (sort_songs_by_loudness fs cwd folder disk calcFn sched).report) ∧
    ((sort_songs_by_loudness fs cwd folder disk calcFn sched).newFiles ≠ [] →
      dictMem (load_cache cwd
        (sort_songs_by_loudness fs cwd folder disk calcFn sched).diskEnd) d = false) := by
  constructor
  · intro v hv
    rw [sort_songs_report] at hv
    unfold sortReport at hv
    rw [List.mem_mergeSort] at hv
    exact hd (contains_iff_mem.mp (List.mem_filter.mp hv).2)
  · intro hne
    rw [sort_songs_diskEnd_pos fs cwd folder disk calcFn sched hne]
    rw [load_save_roundtrip_aux hcwd
      (fun kv hkv =>
        canonPath_of_mem_dictKeys_cacheEnd hwf hsched (List.mem_map_of_mem Prod.fst hkv))
      (nodupKeys_cacheEnd fs cwd folder disk calcFn sched)]
    rw [dictMem_eq_false_iff]
    exact fun hk => hd (mem_dictKeys_cacheEnd hsched hk)

/-- Witness for the amended C3: a deleted cached file plus one genuinely new
file, so the run saves; the stale entry is gone from the persisted cache and
the report. -/
theorem deleted_file_dropped_witness :
    ((sort_songs_by_loudness (V := Int) ⟨[["m", "a.mp3"]]⟩ [] ["m"]
        (CacheFile.content [(Key.rel ["x", "d.mp3"], 4)]) (fun _ => some 1) id).newFiles
      ≠ []) ∧
    (∀ v, ((["x", "d.mp3"] : Path), v) ∉
      (sort_songs_by_loudness (V := Int) ⟨[["m", "a.mp3"]]⟩ [] ["m"]
        (CacheFile.content [(Key.rel ["x", "d.mp3"], 4)]) (fun _ => some 1) id).report) ∧
    dictMem (load_cache []
      (sort_songs_by_loudness (V := Int) ⟨[["m", "a.mp3"]]⟩ [] ["m"]
        (CacheFile.content [(Key.rel ["x", "d.mp3"], 4)]) (fun _ => some 1) id).diskEnd)
      ["x", "d.mp3"] = false :=
  ⟨by decide,
    (deleted_file_dropped Int ⟨[["m", "a.mp3"]]⟩ [] ["m"]
      (CacheFile.content [(Key.rel ["x", "d.mp3"], 4)]) (fun _ => some 1) id
      ["x", "d.mp3"] (by decide) (by decide) (fun l => List.Perm.refl l) (by decide)).1,
    (deleted_file_dropped Int ⟨[["m", "a.mp3"]]⟩ [] ["m"]
      (CacheFile.content [(Key.rel ["x", "d.mp3"], 4)]) (fun _ => some 1) id
      ["x", "d.mp3"] (by decide) (by decide) (fun l => List.Perm.refl l) (by decide)).2
      (by decide)⟩

/-- C4: when a rerun over the same filesystem finds no new files, it performs
no loudness computation (its outcome does not depend on the calculator or the
scheduler), leaves the cache file exactly as it was, and returns the same
report as the previous run. -/
theorem rerun_no_new_files (V : Type) [LinearOrder V] (fs : FS) (cwd folder : Path)
    (disk0 : CacheFile V) (calc1 calc2 : Path → Option V)
    (sched1 sched2 : List Path → List Path)
    (hwf : fs.Wf) (hcwd : CanonPath cwd) (hsched1 : ∀ l, (sched1 l).Perm l)
    (h2 : (sort_songs_by_loudness fs cwd folder
        (sort_songs_by_loudness fs cwd folder disk0 calc1 sched1).diskEnd
        calc2 sched2).newFiles = []) :
    (sort_songs_by_loudness fs cwd folder
        (sort_songs_by_loudness fs cwd folder disk0 calc1 sched1).diskEnd
        calc2 sched2).report =
      (sort_songs_by_loudness fs cwd folder disk0 calc1 sched1).report ∧
    (sort_songs_by_loudness fs cwd folder
        (sort_songs_by_loudness fs cwd folder disk0 calc1 sched1).diskEnd
        calc2 sched2).diskEnd =
      (sort_songs_by_loudness fs cwd folder disk0 calc1 sched1).diskEnd ∧
    ∀ (calcX : Path → Option V) (schedX : List Path → List Path),
      sort_songs_by_loudness fs cwd folder
        (sort_songs_by_loudness fs cwd folder disk0 calc1 sched1).diskEnd calcX schedX =
      sort_songs_by_loudness fs cwd folder
        (sort_songs_by_loudness fs cwd folder disk0 calc1 sched1).diskEnd calc2 sched2 := by
  have key : (sort_songs_by_loudness fs cwd folder
      (sort_songs_by_loudness fs cwd folder disk0 calc1 sched1).diskEnd
      calc2 sched2).report =
      (sort_songs_by_loudness fs cwd folder disk0 calc1 sched1).report := by
    by_cases hA : (sort_songs_by_loudness fs cwd folder disk0 calc1 sched1).newFiles = []
    · have hd0 : (sort_songs_by_loudness fs cwd folder disk0 calc1 sched1).diskEnd =
          disk0 := by
        rw [sort_songs_newFiles] at hA
        rw [sort_songs_neg fs cwd folder disk0 calc1 sched1 hA]
      rw [hd0, run_of_no_new_files fs cwd folder disk0 calc1 sched1 calc2 sched2 hA]
    · have hload : load_cache cwd
          (sort_songs_by_loudness fs cwd folder disk0 calc1 sched1).diskEnd =
          (sort_songs_by_loudness fs cwd folder disk0 calc1 sched1).cacheEnd := by
        rw [sort_songs_diskEnd_pos fs cwd folder disk0 calc1 sched1 hA]
        exact load_save_roundtrip_aux hcwd
          (fun kv hkv => canonPath_of_mem_dictKeys_cacheEnd hwf hsched1
            (List.mem_map_of_mem Prod.fst hkv))
          (nodupKeys_cacheEnd fs cwd folder disk0 calc1 sched1)
      have hrec : reconcile (load_cache cwd
            (sort_songs_by_loudness fs cwd folder disk0 calc1 sched1).diskEnd)
          (get_audio_files fs folder) =
          (sort_songs_by_loudness fs cwd folder disk0 calc1 sched1).cacheEnd := by
        rw [hload]
        exact reconcile_eq_self (nodupKeys_cacheEnd fs cwd folder disk0 calc1 sched1)
          (fun k hk => contains_iff_mem.mpr (mem_dictKeys_cacheEnd hsched1 hk))
      have h2' : newFilesOf (get_audio_files fs folder)
          (reconcile (load_cache cwd
            (sort_songs_by_loudness fs cwd folder disk0 calc1 sched1).diskEnd)
            (get_audio_files fs folder)) = [] := by
        rw [← sort_songs_newFiles fs cwd folder _ calc2 sched2]
        exact h2
      rw [sort_songs_neg fs cwd folder _ calc2 sched2 h2']
      rw [hrec, sort_songs_report fs cwd folder disk0 calc1 sched1]
  refine ⟨key, ?_, ?_⟩
  · have h2' := h2
    rw [sort_songs_newFiles] at h2'
    rw [sort_songs_neg fs cwd folder _ calc2 sched2 h2']
  · intro calcX schedX
    exact run_of_no_new_files fs cwd folder _ calc2 sched2 calcX schedX h2

/-- Witness for C4: first run computes the one new file and saves; the rerun
finds nothing new, and its report, cache file, and calculator-independence
follow from the theorem. -/
theorem rerun_no_new_files_witness :
    ((sort_songs_by_loudness (V := Int) ⟨[["m", "a.mp3"]]⟩ [] ["m"]
        (sort_songs_by_loudness (V := Int) ⟨[["m", "a.mp3"]]⟩ [] ["m"]
          CacheFile.absent (fun _ => some 0) id).diskEnd
        (fun _ => some 7) id).newFiles = []) ∧
    ((sort_songs_by_loudness (V := Int) ⟨[["m", "a.mp3"]]⟩ [] ["m"]
        (sort_songs_by_loudness (V := Int) ⟨[["m", "a.mp3"]]⟩ [] ["m"]
          CacheFile.absent (fun _ => some 0) id).diskEnd
        (fun _ => some 7) id).report =
      (sort_songs_by_loudness (V := Int) ⟨[["m", "a.mp3"]]⟩ [] ["m"]
        CacheFile.absent (fun _ => some 0) id).report ∧
     (sort_songs_by_loudness (V := Int) ⟨[["m", "a.mp3"]]⟩ [] ["m"]
        (sort_songs_by_loudness (V := Int) ⟨[["m", "a.mp3"]]⟩ [] ["m"]
          CacheFile.absent (fun _ => some 0) id).diskEnd
        (fun _ => some 7) id).diskEnd =
      (sort_songs_by_loudness (V := Int) ⟨[["m", "a.mp3"]]⟩ [] ["m"]
        CacheFile.absent (fun _ => some 0) id).diskEnd ∧
     ∀ (calcX : Path → Option Int) (schedX : List Path → List Path),
      sort_songs_by_loudness ⟨[["m", "a.mp3"]]⟩ [] ["m"]
        (sort_songs_by_loudness (V := Int) ⟨[["m", "a.mp3"]]⟩ [] ["m"]
          CacheFile.absent (fun _ => some 0) id).diskEnd calcX schedX =
      sort_songs_by_loudness ⟨[["m", "a.mp3"]]⟩ [] ["m"]
        (sort_songs_by_loudness (V := Int) ⟨[["m", "a.mp3"]]⟩ [] ["m"]
          CacheFile.absent (fun _ => some 0) id).diskEnd (fun _ => some 7) id) :=
  ⟨by decide,
    rerun_no_new_files Int ⟨[["m", "a.mp3"]]⟩ [] ["m"] CacheFile.absent
      (fun _ => some 0) (fun _ => some 7) id id (by decide) (by decide)
      (fun l => List.Perm.refl l) (by decide)⟩

end Pyloud
